import Mathlib

/-!
Verification of the Field sampling and interpolation subsystem of the
PARCELS ocean-particle tracking code (src/parcels/field.py), as a shallow
embedding in Lean 4.

Modelling conventions:
* Python floats are modelled as rationals (ℚ) except for the unit
  converters, which use real numbers because `GeographicPolar` divides by
  a cosine.  NaN, where it matters (the raw data entries at construction
  and the out-of-bounds sentinel of the SciPy interpolator), is modelled
  as `none` in an `Option ℚ`, since the code only ever uses it as a
  sentinel tested with `np.isnan`.
* Python exceptions are modelled with `Except`: `Field.time_index` can
  raise `TimeExtrapolationError` and `Field.spatial_interpolation` can
  raise `FieldSamplingError`, so both return `Except`.
* `scipy.interpolate.RegularGridInterpolator` is an external library, not
  code of this repository; a `Field` therefore carries an abstract slice
  interpolator `interp : ℤ → ℚ → ℚ → Option ℚ` standing for
  `interpolator2D(t_idx)((y, x))`, with `none` for the NaN fill value
  returned on out-of-bounds queries.  Likewise the unit converter carried
  by a field is an abstract function `toTarget` standing for
  `self.units.to_target`.
* numpy indexing details are kept: `time_index` can return `argmin() - 1`,
  an `Int`, and `npGet` implements numpy's negative-index wraparound;
  `npTakeLast` implements the slice `a[-h:]`, which for `h = 0` is the
  whole array and for `h > len(a)` clips to the whole array.
-/

namespace Parcels

/-- Error payload of `FieldSamplingError(x, y, field)`: the offending
coordinates and the name of the sampled field. -/
structure SamplingErr where
  x : ℚ
  y : ℚ
  fieldName : String
deriving DecidableEq, Repr

/-- Error payload of `TimeExtrapolationError(time, field)`: the offending
time and the name of the sampled field. -/
structure TimeErr where
  time : ℚ
  fieldName : String
deriving DecidableEq, Repr

/-- The two exception kinds that `Field.eval` can propagate. -/
inductive FieldError where
  | sampling : SamplingErr → FieldError
  | timeExt : TimeErr → FieldError
deriving DecidableEq, Repr

/-- numpy `argmin` on a boolean array: the index of the first occurrence of
the minimum value (`False` when any entry is `False`, otherwise `True`,
whose first occurrence is index 0). -/
def npArgminBool (l : List Bool) : ℕ :=
  if l.all id then 0 else l.findIdx (fun b => !b)

/-- numpy indexing `a[i]` with negative-index wraparound (`a[-1]` is the
last entry); a query that is out of bounds even after wraparound would
raise in numpy and is given the default 0 here (never exercised by the
claims, whose hypotheses keep indices in range). -/
def npGet (xs : List ℚ) (i : ℤ) : ℚ :=
  if i < 0 then xs.getD (xs.length - i.natAbs) 0 else xs.getD i.natAbs 0

/-- numpy slice `a[-h:]`: the last `h` entries; for `h = 0` numpy reads
`a[-0:] = a[0:]`, the whole array, and for `h ≥ len(a)` it clips to the
whole array. -/
def npTakeLast (l : List ℚ) (h : ℕ) : List ℚ :=
  if h = 0 then l else l.drop (l.length - h)

/-- The Field data model (src/parcels/field.py, class Field), restricted to
what its sampling path reads: the time axis, the extrapolation flag, the
slice interpolators built by `interpolator2D` (abstract, see module
comment) and the unit converter's `to_target`. -/
structure Field where
  name : String
  time : List ℚ
  allow_time_extrapolation : Bool
  interp : ℤ → ℚ → ℚ → Option ℚ
  toTarget : ℚ → ℚ → ℚ → ℚ

namespace Field

/-- `Field.time_index(time)` (field.py lines 321-336): raise
`TimeExtrapolationError` when extrapolation is disallowed and the time is
outside `[time[0], time[-1]]`; otherwise take the boolean array
`time_index = self.time <= time` and return `len(self.time) - 1` if it is
all `True`, else `argmin() - 1` if any `True`, else `0`. -/
def timeIndex (f : Field) (t : ℚ) : Except TimeErr ℤ :=
  if f.allow_time_extrapolation = false ∧ (t < f.time.headD 0 ∨ f.time.getLastD 0 < t) then
    .error ⟨t, f.name⟩
  else
    let ti := f.time.map (fun v => decide (v ≤ t))
    if ti.all id then
      .ok ((f.time.length : ℤ) - 1)
    else if ti.any id then
      .ok ((npArgminBool ti : ℤ) - 1)
    else
      .ok 0

/-- `Field.spatial_interpolation(tidx, y, x)` (field.py lines 312-319):
query the slice interpolator at `(y, x)`; if the result is the NaN
sentinel raise `FieldSamplingError(x, y, field)`, else return it. -/
def spatial_interpolation (f : Field) (tidx : ℤ) (y x : ℚ) : Except FieldError ℚ :=
  match f.interp tidx y x with
  | none => .error (.sampling ⟨x, y, f.name⟩)
  | some val => .ok val

/-- `Field.eval(time, x, y)` (field.py lines 338-358): resolve the time
index; when it is not the last index and `time` strictly exceeds
`time[t_idx]`, blend the spatial interpolations at `t_idx` and `t_idx+1`
linearly by `(time - t0) / (t1 - t0)`; otherwise take the slice at
`t_idx` alone; finally apply `units.to_target(value, x, y)`. -/
def eval (f : Field) (t x y : ℚ) : Except FieldError ℚ :=
  match f.timeIndex t with
  | .error e => .error (.timeExt e)
  | .ok t_idx =>
    if t_idx < (f.time.length : ℤ) - 1 ∧ npGet f.time t_idx < t then
      match f.spatial_interpolation t_idx y x with
      | .error e => .error e
      | .ok f0 =>
        match f.spatial_interpolation (t_idx + 1) y x with
        | .error e => .error e
        | .ok f1 =>
          .ok (f.toTarget (f0 + (f1 - f0) *
            ((t - npGet f.time t_idx) /
              (npGet f.time (t_idx + 1) - npGet f.time t_idx))) x y)
    else
      match f.spatial_interpolation t_idx y x with
      | .error e => .error e
      | .ok val => .ok (f.toTarget val x y)

end Field

/-! Unit converters (field.py lines 81-124).  The base class `UnitConverter`
defines both `to_target` and `to_source` as the identity; `Geographic` and
`GeographicPolar` override only `to_target` and inherit `to_source`. -/

namespace UnitConverter

/-- `UnitConverter.to_target` (field.py line 88): identity. -/
noncomputable def to_target (value _x _y : ℝ) : ℝ := value

/-- `UnitConverter.to_source` (field.py line 94): identity. -/
noncomputable def to_source (value _x _y : ℝ) : ℝ := value

end UnitConverter

namespace Geographic

/-- `Geographic.to_target` (field.py line 106): `value / 1000 / 1.852 / 60`. -/
noncomputable def to_target (value _x _y : ℝ) : ℝ := value / 1000 / 1.852 / 60

/-- `Geographic` does not define `to_source`; it inherits
`UnitConverter.to_source` (the identity). -/
noncomputable def to_source (value x y : ℝ) : ℝ := UnitConverter.to_source value x y

end Geographic

namespace GeographicPolar

/-- `GeographicPolar.to_target` (field.py line 120):
`value / 1000 / 1.852 / 60 / cos(y * pi / 180)`. -/
noncomputable def to_target (value _x y : ℝ) : ℝ :=
  value / 1000 / 1.852 / 60 / Real.cos (y * Real.pi / 180)

/-- `GeographicPolar` does not define `to_source`; it inherits
`UnitConverter.to_source` (the identity). -/
noncomputable def to_source (value x y : ℝ) : ℝ := UnitConverter.to_source value x y

end GeographicPolar

/-- `Field.__init__` resolution of `allow_time_extrapolation` (field.py
lines 159-162): when the argument is `None`, the flag becomes `True`
exactly when no `time` array was supplied, else `False`; an explicit
boolean is stored unchanged. -/
def resolveAllowTimeExtrapolation (timeArg : Option (List ℚ)) (allowArg : Option Bool) : Bool :=
  match allowArg with
  | none => timeArg.isNone
  | some b => b

/-- `Field.__init__` default of the `time` axis (field.py line 155): a
single zero entry when no time array is supplied. -/
def resolveTime (timeArg : Option (List ℚ)) : List ℚ :=
  match timeArg with
  | none => [0]
  | some ts => ts

/-- One entry of the construction-time data cleanup (field.py lines
183-189).  The raw entry is an `Option ℚ`, `none` modelling NaN.  The code
runs three vectorised in-place passes in order: `data[data < vmin] = 0`,
`data[data > vmax] = 0`, `data[np.isnan(data)] = 0`; a NaN compares false
with everything, so the first two passes leave `none` untouched. -/
def constructEntry (vmin vmax : Option ℚ) (raw : Option ℚ) : Option ℚ :=
  let s1 : Option ℚ :=
    match raw with
    | none => none
    | some v =>
      match vmin with
      | some m => if v < m then some 0 else some v
      | none => some v
  let s2 : Option ℚ :=
    match s1 with
    | none => none
    | some v =>
      match vmax with
      | some M => if M < v then some 0 else some v
      | none => some v
  match s2 with
  | none => some 0
  | some v => some v

/-- The construction-time cleanup applied to the whole 3-axis data array
(time, lat, lon), elementwise as the vectorised numpy passes are. -/
def constructData (vmin vmax : Option ℚ) (raws : List (List (List (Option ℚ)))) :
    List (List (List (Option ℚ))) :=
  raws.map (fun sl => sl.map (fun row => row.map (constructEntry vmin vmax)))

/-! Periodic halo extension (field.py lines 442-461).  The method mutates
`self.lon`/`self.lat`/`self.data` in place; it is modelled by functions
from the old arrays to the new ones.  The data array has axes
(time, lat, lon); the zonal branch concatenates along the last axis and
the meridional branch along the middle axis. -/

/-- Shift amount `coord[-1] - 2 * coord[0] + coord[1]` used by
`add_periodic_halo` (field.py lines 451 and 457). -/
def coordShift (coord : List ℚ) : ℚ :=
  coord.getLastD 0 - 2 * coord.headD 0 + coord.getD 1 0

/-- New coordinate array after a halo of size `h`:
`concatenate((coord[-h:] - shift, coord, coord[0:h] + shift))`
(field.py lines 454-455 for lon, 460-461 for lat). -/
def haloCoord (coord : List ℚ) (h : ℕ) : List ℚ :=
  let s := coordShift coord
  (npTakeLast coord h).map (fun v => v - s) ++ coord ++
    (coord.take h).map (fun v => v + s)

/-- Zonal halo on the data array:
`concatenate((data[:, :, -h:], data, data[:, :, 0:h]), axis=2)`
(field.py lines 452-453), i.e. elementwise per (time, lat) row. -/
def haloDataZonal (data : List (List (List ℚ))) (h : ℕ) : List (List (List ℚ)) :=
  data.map (fun sl => sl.map (fun row => npTakeLast row h ++ row ++ row.take h))

/-- numpy slice `a[-h:]` on a list of rows, for the meridional halo. -/
def npTakeLastRows (l : List (List ℚ)) (h : ℕ) : List (List ℚ) :=
  if h = 0 then l else l.drop (l.length - h)

/-- Meridional halo on the data array:
`concatenate((data[:, -h:, :], data, data[:, 0:h, :]), axis=1)`
(field.py lines 458-459), i.e. per time slice on the rows. -/
def haloDataMeridional (data : List (List (List ℚ))) (h : ℕ) : List (List (List ℚ)) :=
  data.map (fun sl => npTakeLastRows sl h ++ sl ++ sl.take h)

/-! The LRU caches (field.py lines 196-197, 287, 321).  `cachetools.LRUCache`
with `maxsize=2` backs the `@cachedmethod` decorations of `interpolator2D`
and `time_index`.  A cache is a most-recently-used-first association list
bounded by `maxsize`; a hit moves the key to the front, a miss computes,
stores and evicts beyond capacity.  `cachetools` does not cache a raising
call, so only successful `time_index` results are stored. -/

structure LRU (κ ν : Type) where
  entries : List (κ × ν)
  maxsize : ℕ

/-- Cache lookup: the stored value for the key, if present. -/
def lruLookup {κ ν : Type} [DecidableEq κ] (c : LRU κ ν) (k : κ) : Option ν :=
  (c.entries.find? (fun p => decide (p.1 = k))).map Prod.snd

/-- On a hit the LRU cache moves the key to the front. -/
def lruTouch {κ ν : Type} [DecidableEq κ] (c : LRU κ ν) (k : κ) : LRU κ ν :=
  match lruLookup c k with
  | none => c
  | some v => ⟨(k, v) :: c.entries.filter (fun p => decide (p.1 ≠ k)), c.maxsize⟩

/-- On a miss the computed value is stored in front and the least recently
used entries beyond capacity are evicted. -/
def lruInsert {κ ν : Type} [DecidableEq κ] (c : LRU κ ν) (k : κ) (v : ν) : LRU κ ν :=
  ⟨(k, v) :: (c.entries.filter (fun p => decide (p.1 ≠ k))).take (c.maxsize - 1), c.maxsize⟩

/-- Semantics of `@cachedmethod` for a non-raising method: return the
cached value on a hit, else compute, cache and return. -/
def cachedCall {κ ν : Type} [DecidableEq κ] (compute : κ → ν) (c : LRU κ ν) (k : κ) :
    ν × LRU κ ν :=
  match lruLookup c k with
  | some v => (v, lruTouch c k)
  | none => (compute k, lruInsert c k (compute k))

/-- Semantics of `@cachedmethod` for a raising method: a raised exception
propagates and is not cached. -/
def cachedCallE {κ ν ε : Type} [DecidableEq κ] (compute : κ → Except ε ν) (c : LRU κ ν)
    (k : κ) : Except ε ν × LRU κ ν :=
  match lruLookup c k with
  | some v => (.ok v, lruTouch c k)
  | none =>
    match compute k with
    | .error e => (.error e, c)
    | .ok v => (.ok v, lruInsert c k v)

/-- A Field together with the mutable state of its two caches
(field.py lines 196-197): `interpolator_cache` keyed by time-slice index
and `time_index_cache` keyed by the raw query time. -/
structure FieldState where
  field : Field
  interpCache : LRU ℤ (ℚ → ℚ → Option ℚ)
  timeIdxCache : LRU ℚ ℤ

namespace FieldState

/-- `interpolator2D` through its cache (field.py lines 287-296): the
computed value for time-slice index `i` is the slice interpolator
`fun y x => interp i y x`. -/
def interpolator2D (s : FieldState) (tidx : ℤ) : (ℚ → ℚ → Option ℚ) × FieldState :=
  let r := cachedCall (fun i => s.field.interp i) s.interpCache tidx
  (r.1, { s with interpCache := r.2 })

/-- `spatial_interpolation` on the cached state. -/
def spatial_interpolation (s : FieldState) (tidx : ℤ) (y x : ℚ) :
    Except FieldError ℚ × FieldState :=
  let r := s.interpolator2D tidx
  match r.1 y x with
  | none => (.error (.sampling ⟨x, y, s.field.name⟩), r.2)
  | some val => (.ok val, r.2)

/-- `time_index` through its cache (field.py lines 321-336). -/
def timeIndex (s : FieldState) (t : ℚ) : Except TimeErr ℤ × FieldState :=
  let r := cachedCallE (fun u => s.field.timeIndex u) s.timeIdxCache t
  (r.1, { s with timeIdxCache := r.2 })

/-- `eval` on the cached state, threading both caches exactly as the
method calls do in field.py lines 338-358. -/
def eval (s : FieldState) (t x y : ℚ) : Except FieldError ℚ × FieldState :=
  let ri := s.timeIndex t
  match ri.1 with
  | .error e => (.error (.timeExt e), ri.2)
  | .ok t_idx =>
    let s1 := ri.2
    if t_idx < (s1.field.time.length : ℤ) - 1 ∧ npGet s1.field.time t_idx < t then
      let r0 := s1.spatial_interpolation t_idx y x
      match r0.1 with
      | .error e => (.error e, r0.2)
      | .ok f0 =>
        let r1 := r0.2.spatial_interpolation (t_idx + 1) y x
        match r1.1 with
        | .error e => (.error e, r1.2)
        | .ok f1 =>
          (.ok (r1.2.field.toTarget (f0 + (f1 - f0) *
            ((t - npGet r1.2.field.time t_idx) /
              (npGet r1.2.field.time (t_idx + 1) - npGet r1.2.field.time t_idx))) x y), r1.2)
    else
      let r0 := s1.spatial_interpolation t_idx y x
      match r0.1 with
      | .error e => (.error e, r0.2)
      | .ok val => (.ok (r0.2.field.toTarget val x y), r0.2)

/-- Run a sequence of `eval` queries, threading the cache state. -/
def runQueries (s : FieldState) : List (ℚ × ℚ × ℚ) → List (Except FieldError ℚ)
  | [] => []
  | q :: qs =>
    let r := s.eval q.1 q.2.1 q.2.2
    r.1 :: runQueries r.2 qs

end FieldState

/-- A cache state is valid when every interpolator entry is the slice
interpolator of its key and every time-index entry is the successful
result of `time_index` at its key.  The empty caches are valid, and the
cached methods only ever store such entries. -/
def ValidState (s : FieldState) : Prop :=
  (∀ p ∈ s.interpCache.entries, p.2 = s.field.interp p.1) ∧
  (∀ p ∈ s.timeIdxCache.entries, s.field.timeIndex p.1 = .ok p.2)

/-- A small concrete field used to instantiate the theorems: three time
slices, extrapolation disallowed, an interpolator defined on the box
`x, y ∈ [-100, 100]` with the NaN sentinel outside, and a non-trivial
unit conversion. -/
def sampleField : Field where
  name := "U"
  time := [0, 10, 20]
  allow_time_extrapolation := false
  interp := fun i y x => if x ≤ 100 ∧ y ≤ 100 then some ((i : ℚ) + x + y) else none
  toTarget := fun v _ _ => 2 * v

/-- The same field with extrapolation allowed. -/
def sampleFieldExtrap : Field :=
  { sampleField with allow_time_extrapolation := true }

end Parcels

namespace Parcels

/-- C10: with `allow_time_extrapolation` omitted (`None`), the constructor
sets the flag to true exactly when no time array was supplied (in which
case the time axis defaults to a single zero entry) and to false when one
was; an explicitly supplied boolean is stored unchanged. -/
theorem allow_time_extrapolation_default_spec :
    (∀ timeArg : Option (List ℚ),
        resolveAllowTimeExtrapolation timeArg none = timeArg.isNone) ∧
    (∀ (timeArg : Option (List ℚ)) (b : Bool),
        resolveAllowTimeExtrapolation timeArg (some b) = b) ∧
    resolveTime none = [0] ∧
    (∀ ts : List ℚ, resolveTime (some ts) = ts) := by
  refine ⟨fun timeArg => rfl, fun timeArg b => rfl, rfl, fun ts => rfl⟩

/-- C5 counterexample: `Geographic` overrides only `to_target` and inherits
the identity `to_source` from `UnitConverter`, so `to_source` does not
invert `to_target`: at value 111120 the round trip returns 1. -/
theorem to_source_not_inverse_cex :
    Geographic.to_source (Geographic.to_target 111120 0 0) 0 0 ≠ 111120 := by
  unfold Geographic.to_source Geographic.to_target UnitConverter.to_source
  norm_num

/-- C5 amended: `to_source` inverts `to_target` for the identity
`UnitConverter`; `Geographic` and `GeographicPolar` inherit the identity
`to_source`, so their round trip returns `to_target(value, x, y)` itself
rather than the original value. -/
theorem to_source_inheritance_spec :
    (∀ v x y : ℝ, UnitConverter.to_source (UnitConverter.to_target v x y) x y = v) ∧
    (∀ v x y : ℝ, Geographic.to_source (Geographic.to_target v x y) x y =
      Geographic.to_target v x y) ∧
    (∀ v x y : ℝ, GeographicPolar.to_source (GeographicPolar.to_target v x y) x y =
      GeographicPolar.to_target v x y) := by
  refine ⟨fun v x y => rfl, fun v x y => rfl, fun v x y => rfl⟩

/-- C4: `spatial_interpolation(tidx, y, x)` raises
`FieldSamplingError(x, y, field)` exactly when the slice interpolator
returns the NaN out-of-bounds sentinel, and otherwise returns the
interpolated value without raising. -/
theorem Field.spatial_interpolation_spec (f : Field) (tidx : ℤ) (y x : ℚ) :
    (f.interp tidx y x = none →
      f.spatial_interpolation tidx y x = .error (.sampling ⟨x, y, f.name⟩)) ∧
    (∀ v, f.interp tidx y x = some v → f.spatial_interpolation tidx y x = .ok v) := by
  constructor
  · intro hnan
    simp [Field.spatial_interpolation, hnan]
  · intro v hval
    simp [Field.spatial_interpolation, hval]

/-- Witness for C4 at a concrete out-of-domain query: `x = 200` lies
outside the sample field's domain, so sampling raises. -/
theorem Field.spatial_interpolation_spec_witness :
    sampleField.interp 0 0 200 = none ∧
    sampleField.spatial_interpolation 0 0 200 = .error (.sampling ⟨200, 0, "U"⟩) :=
  ⟨by decide, (Field.spatial_interpolation_spec sampleField 0 0 200).1 (by decide)⟩

/-- Every entry of the cleaned data array is a proper number. -/
theorem constructEntry_isSome (vmin vmax raw : Option ℚ) :
    (constructEntry vmin vmax raw).isSome = true := by
  unfold constructEntry
  rcases raw with - | v <;> rcases vmin with - | m <;> rcases vmax with - | M <;>
    simp only [] <;> repeat first
      | simp only [Option.isSome_some]
      | split

/-- C8: after construction no entry of `data` is NaN, every raw entry
strictly below `vmin` (when supplied) has been replaced by 0, and every
raw entry strictly above `vmax` (when supplied) has been replaced by 0.
The clamping lives entirely in the construction pipeline: the `Field`
model carries no `vmin`/`vmax` and `Field.eval` never consults them. -/
theorem construct_clamp_spec (vmin vmax : Option ℚ) (raws : List (List (List (Option ℚ)))) :
    (∀ sl ∈ constructData vmin vmax raws, ∀ row ∈ sl, ∀ e ∈ row, e.isSome = true) ∧
    (∀ raw, raw = none → constructEntry vmin vmax raw = some 0) ∧
    (∀ m v, vmin = some m → v < m → constructEntry vmin vmax (some v) = some 0) ∧
    (∀ M v, vmax = some M → M < v → constructEntry vmin vmax (some v) = some 0) := by
  refine ⟨?_, ?_, ?_, ?_⟩
  · intro sl hsl row hrow e he
    simp only [constructData, List.mem_map] at hsl
    obtain ⟨sl0, -, rfl⟩ := hsl
    simp only [List.mem_map] at hrow
    obtain ⟨row0, -, rfl⟩ := hrow
    simp only [List.mem_map] at he
    obtain ⟨raw, -, rfl⟩ := he
    exact constructEntry_isSome vmin vmax raw
  · rintro raw rfl
    unfold constructEntry
    rcases vmin with - | m <;> rcases vmax with - | M <;> simp
  · rintro m v rfl hv
    unfold constructEntry
    rcases vmax with - | M
    · simp [hv]
    · simp only [if_pos hv, ite_self]
  · rintro M v rfl hv
    unfold constructEntry
    rcases vmin with - | m
    · simp [hv]
    · by_cases hvm : v < m
      · simp only [if_pos hvm, ite_self]
      · simp [hvm, hv]

/-- C1: when the resolved time index is not the last and the query time
strictly exceeds `time[t_idx]`, `eval` returns `units.to_target` of the
linear blend of the spatial interpolations at `t_idx` and `t_idx+1`;
otherwise (exact hit or clamped tail index) it returns `units.to_target`
of the spatial interpolation at `t_idx` alone, with no temporal blend. -/
theorem Field.eval_temporal_spec (f : Field) (t x y : ℚ) (i : ℤ)
    (hidx : f.timeIndex t = .ok i) :
    (∀ f0 f1, (i < (f.time.length : ℤ) - 1 ∧ npGet f.time i < t) →
      f.spatial_interpolation i y x = .ok f0 →
      f.spatial_interpolation (i + 1) y x = .ok f1 →
      f.eval t x y = .ok (f.toTarget (f0 + (f1 - f0) *
        ((t - npGet f.time i) / (npGet f.time (i + 1) - npGet f.time i))) x y)) ∧
    (∀ f0, ¬(i < (f.time.length : ℤ) - 1 ∧ npGet f.time i < t) →
      f.spatial_interpolation i y x = .ok f0 →
      f.eval t x y = .ok (f.toTarget f0 x y)) := by
  constructor
  · intro f0 f1 hcond h0 h1
    unfold Field.eval
    rw [hidx]
    simp only [if_pos hcond, h0, h1]
  · intro f0 hcond h0
    unfold Field.eval
    rw [hidx]
    simp only [if_neg hcond, h0]

/-- Evaluation helper: the sample field resolves time 5 to index 0. -/
theorem tidx_sample : sampleField.timeIndex 5 = .ok 0 := by
  norm_num [Field.timeIndex, sampleField, npArgminBool, List.findIdx, List.findIdx.go]

/-- Evaluation helper: spatial interpolation of the sample field at slice 0. -/
theorem si_sample0 : sampleField.spatial_interpolation 0 3 2 = .ok 5 := by
  norm_num [Field.spatial_interpolation, sampleField]

/-- Evaluation helper: spatial interpolation of the sample field at slice 1. -/
theorem si_sample1 : sampleField.spatial_interpolation (0 + 1) 3 2 = .ok 6 := by
  norm_num [Field.spatial_interpolation, sampleField]

/-- Witness for C1 at a concrete blended query: time 5 lies strictly
between grid times 0 and 10, `f0 = 5`, `f1 = 6`, so the blend is 5.5 and
the unit conversion doubles it to 11. -/
theorem Field.eval_temporal_spec_witness :
    sampleField.timeIndex 5 = .ok 0 ∧ sampleField.eval 5 2 3 = .ok 11 :=
  ⟨tidx_sample, Eq.trans
    ((Field.eval_temporal_spec sampleField 5 2 3 0 tidx_sample).1 5 6
      (by norm_num [sampleField, npGet]) si_sample0 si_sample1)
    (by norm_num [sampleField, npGet])⟩

/-- Witness for C8 at concrete inputs: with `vmin = 1`, `vmax = 5`, a NaN
entry, an entry 0 below `vmin` and an entry 7 above `vmax` all become 0,
and a concrete cleaned array has no NaN entry. -/
theorem construct_clamp_spec_witness :
    constructEntry (some 1) (some 5) none = some 0 ∧
    constructEntry (some 1) (some 5) (some 0) = some 0 ∧
    constructEntry (some 1) (some 5) (some 7) = some 0 := by
  refine ⟨(construct_clamp_spec (some 1) (some 5) []).2.1 none rfl,
    (construct_clamp_spec (some 1) (some 5) []).2.2.1 1 0 rfl (by norm_num),
    (construct_clamp_spec (some 1) (some 5) []).2.2.2 5 7 rfl (by norm_num)⟩

/-- For a halo size between 1 and the array length, the numpy slice
`a[-h:]` has exactly `h` entries. -/
theorem npTakeLast_length (l : List ℚ) (h : ℕ) (h1 : 1 ≤ h) (hle : h ≤ l.length) :
    (npTakeLast l h).length = h := by
  unfold npTakeLast
  rw [if_neg (by omega)]
  simp only [List.length_drop]
  omega

/-- C6 counterexample: the claim quantifies over every halo size, but
numpy slicing clips `lon[-h:]` to the whole array when `h` exceeds the
array length: with `lon = [0, 1]` and `h = 3` the new array has
`2 + 2*2 = 6` entries, not the claimed `2 + 2*3 = 8`. -/
theorem add_periodic_halo_cex :
    ¬ ((haloCoord ([0, 1] : List ℚ) 3).length = ([0, 1] : List ℚ).length + 2 * 3) := by
  decide

/-- C6 amended: for halo sizes `1 ≤ h ≤ len(coord)` (numpy slicing clips
larger halos and `h = 0` reads the whole array via `[-0:]`), the new lon
array has `len + 2h` entries, is the old array with the last `h` entries
shifted down by `coordShift` prepended and the first `h` entries shifted
up appended, its middle section is the old array, and the data array is
extended along the longitude axis by the corresponding copied columns;
symmetrically for the meridional direction on lat and the latitude axis. -/
theorem add_periodic_halo_spec (lon lat : List ℚ) (d : List (List (List ℚ))) (h : ℕ)
    (hlon2 : 2 ≤ lon.length) (hlat2 : 2 ≤ lat.length)
    (hpos : 1 ≤ h) (hlon : h ≤ lon.length) (hlat : h ≤ lat.length) :
    ((haloCoord lon h).length = lon.length + 2 * h) ∧
    (haloCoord lon h = (lon.drop (lon.length - h)).map (fun v => v - coordShift lon)
        ++ lon ++ (lon.take h).map (fun v => v + coordShift lon)) ∧
    (((haloCoord lon h).drop h).take lon.length = lon) ∧
    ((haloCoord lat h).length = lat.length + 2 * h) ∧
    (((haloCoord lat h).drop h).take lat.length = lat) ∧
    (haloDataZonal d h =
      d.map (fun sl => sl.map (fun row => npTakeLast row h ++ row ++ row.take h))) ∧
    (∀ row : List ℚ, row.length = lon.length →
      (npTakeLast row h ++ row ++ row.take h).length = row.length + 2 * h ∧
      ((npTakeLast row h ++ row ++ row.take h).drop h).take row.length = row) ∧
    (haloDataMeridional d h = d.map (fun sl => npTakeLastRows sl h ++ sl ++ sl.take h)) := by
  have key : ∀ c : List ℚ, 1 ≤ h → h ≤ c.length →
      ∀ g g' : ℚ → ℚ,
      ((npTakeLast c h).map g ++ c ++ (c.take h).map g').length = c.length + 2 * h ∧
      (((npTakeLast c h).map g ++ c ++ (c.take h).map g').drop h).take c.length = c := by
    intro c hp hc g g'
    have hlen : ((npTakeLast c h).map g).length = h := by
      rw [List.length_map]; exact npTakeLast_length c h hp hc
    constructor
    · simp only [List.append_assoc, List.length_append, hlen, List.length_map,
        List.length_take]
      omega
    · rw [List.append_assoc, List.drop_left' hlen, List.take_left' rfl]
  refine ⟨?_, ?_, ?_, ?_, ?_, rfl, ?_, rfl⟩
  · exact (key lon hpos hlon _ _).1
  · unfold haloCoord npTakeLast
    rw [if_neg (by omega)]
  · exact (key lon hpos hlon _ _).2
  · exact (key lat hpos hlat _ _).1
  · exact (key lat hpos hlat _ _).2
  · intro row hrow
    have h1 : (npTakeLast row h).length = h := npTakeLast_length row h hpos (by omega)
    constructor
    · simp only [List.append_assoc, List.length_append, h1, List.length_take]
      omega
    · rw [List.append_assoc, List.drop_left' h1, List.take_left' rfl]

/-- Witness for C6 at a concrete grid: `lon = [0, 1, 2, 3]`, halo 2. -/
theorem add_periodic_halo_spec_witness :
    ((haloCoord ([0, 1, 2, 3] : List ℚ) 2).length = 4 + 2 * 2) ∧
    (((haloCoord ([0, 1, 2, 3] : List ℚ) 2).drop 2).take 4 = [0, 1, 2, 3]) := by
  have h := add_periodic_halo_spec [0, 1, 2, 3] [0, 1] [] 2 (by norm_num) (by norm_num)
    (by norm_num) (by norm_num) (by norm_num)
  exact ⟨h.1, h.2.2.1⟩

/-- C9: `GeographicPolar.to_target` is strictly increasing in latitude
for a fixed positive value: the pole correction divides by the cosine of
the latitude, which is positive and strictly decreasing on `[0, 90)`
degrees. -/
theorem geographicPolar_strict_mono (v x y1 y2 : ℝ)
    (hv : 0 < v) (h0 : 0 ≤ y1) (h12 : y1 < y2) (h90 : y2 < 90) :
    GeographicPolar.to_target v x y1 < GeographicPolar.to_target v x y2 := by
  unfold GeographicPolar.to_target
  have hpi := Real.pi_pos
  have hbase : 0 < v / 1000 / 1.852 / 60 := by positivity
  have ha1 : 0 ≤ y1 * Real.pi / 180 := by positivity
  have hlt : y1 * Real.pi / 180 < y2 * Real.pi / 180 := by
    have : 0 < Real.pi / 180 := by positivity
    calc y1 * Real.pi / 180 = y1 * (Real.pi / 180) := by ring
    _ < y2 * (Real.pi / 180) := by exact mul_lt_mul_of_pos_right h12 this
    _ = y2 * Real.pi / 180 := by ring
  have ha2 : y2 * Real.pi / 180 < Real.pi / 2 := by
    have h180 : y2 * Real.pi < 90 * Real.pi := mul_lt_mul_of_pos_right h90 hpi
    linarith
  have hcos2 : 0 < Real.cos (y2 * Real.pi / 180) :=
    Real.cos_pos_of_mem_Ioo ⟨by linarith, ha2⟩
  have hcoslt : Real.cos (y2 * Real.pi / 180) < Real.cos (y1 * Real.pi / 180) :=
    Real.cos_lt_cos_of_nonneg_of_le_pi ha1 (by linarith) hlt
  exact div_lt_div_of_pos_left hbase hcos2 hcoslt

/-- Witness for C9 at latitudes 0 and 60 degrees with value 1. -/
theorem geographicPolar_strict_mono_witness :
    (0:ℝ) < 1 ∧ (0:ℝ) ≤ 0 ∧ (0:ℝ) < 60 ∧ (60:ℝ) < 90 ∧
    GeographicPolar.to_target 1 0 0 < GeographicPolar.to_target 1 0 60 :=
  ⟨by norm_num, le_refl 0, by norm_num, by norm_num,
    geographicPolar_strict_mono 1 0 0 60 (by norm_num) (le_refl 0) (by norm_num) (by norm_num)⟩

/-- Entries of a strictly increasing list are monotone in the index. -/
theorem chain_getD_mono (l : List ℚ) (hmono : l.Chain' (· < ·)) (i j : ℕ)
    (hij : i ≤ j) (hj : j < l.length) : l.getD i 0 ≤ l.getD j 0 := by
  have hp := List.chain'_iff_pairwise.mp hmono
  rw [List.pairwise_iff_getElem] at hp
  rcases Nat.eq_or_lt_of_le hij with rfl | hlt
  · exact le_refl _
  · have hi : i < l.length := lt_trans hlt hj
    rw [List.getD_eq_getElem l 0 hi, List.getD_eq_getElem l 0 hj]
    exact le_of_lt (hp i j hi hj hlt)

/-- C2: for a strictly increasing time array, whenever `time_index`
returns without raising it returns the largest index `i` with
`time[i] <= t`; when no entry is `<= t` it returns 0; and when every
entry is `<= t` it returns `len(time) - 1`. -/
theorem Field.time_index_largest (f : Field) (t : ℚ) (i : ℤ)
    (hne : f.time ≠ []) (hmono : f.time.Chain' (· < ·))
    (hok : f.timeIndex t = .ok i) :
    ((∃ j, j < f.time.length ∧ f.time.getD j 0 ≤ t) →
      0 ≤ i ∧ i.toNat < f.time.length ∧ f.time.getD i.toNat 0 ≤ t ∧
      ∀ j, j < f.time.length → f.time.getD j 0 ≤ t → (j : ℤ) ≤ i) ∧
    ((∀ j, j < f.time.length → ¬ f.time.getD j 0 ≤ t) → i = 0) ∧
    ((∀ j, j < f.time.length → f.time.getD j 0 ≤ t) → i = (f.time.length : ℤ) - 1) := by
  have hlen0 : 0 < f.time.length := List.length_pos.mpr hne
  simp only [Field.timeIndex] at hok
  set b := f.time.map (fun v => decide (v ≤ t)) with hb
  have hblen : b.length = f.time.length := List.length_map _ _
  have hbj : ∀ j, j < f.time.length → b.getD j false = decide (f.time.getD j 0 ≤ t) := by
    intro j hj
    have hjb : j < b.length := by omega
    rw [List.getD_eq_getElem b false hjb, List.getD_eq_getElem f.time 0 hj]
    simp only [hb, List.getElem_map]
  have hval : ∀ j, j < f.time.length → (f.time.getD j 0 ≤ t ↔ b.getD j false = true) := by
    intro j hj
    rw [hbj j hj]
    exact decide_eq_true_iff.symm
  split at hok
  · exact absurd hok (by simp)
  split at hok
  · -- all entries satisfy time[j] <= t; returns len - 1
    rename_i hall
    have hle : ∀ j, j < f.time.length → f.time.getD j 0 ≤ t := by
      intro j hj
      have hjb : j < b.length := by omega
      refine (hval j hj).mpr ?_
      rw [List.getD_eq_getElem b false hjb]
      exact List.all_eq_true.mp hall _ (List.getElem_mem hjb)
    have hi : i = (f.time.length : ℤ) - 1 := (Except.ok.inj hok).symm
    subst hi
    refine ⟨?_, ?_, ?_⟩
    · intro hex
      refine ⟨by omega, by omega, ?_, ?_⟩
      · have heq : ((f.time.length : ℤ) - 1).toNat = f.time.length - 1 := by omega
        rw [heq]
        exact hle _ (by omega)
      · intro j hj hjle
        omega
    · intro hnone
      exact absurd (hle 0 hlen0) (hnone 0 hlen0)
    · intro hall2
      rfl
  · split at hok
    · -- some but not all entries satisfy time[j] <= t; returns argmin - 1
      rename_i hnall hany
      have hargmin : npArgminBool b = b.findIdx (fun x => !x) := by
        unfold npArgminBool
        rw [if_neg hnall]
      have hexfalse : ∃ x ∈ b, (!x) = true := by
        have h1 : ¬ ∀ x ∈ b, id x = true := fun h => hnall (List.all_eq_true.mpr h)
        push_neg at h1
        obtain ⟨x, hxb, hxf⟩ := h1
        exact ⟨x, hxb, by cases x <;> simp_all⟩
      have hexj : ∃ j, j < f.time.length ∧ f.time.getD j 0 ≤ t := by
        obtain ⟨x, hxb, hxt⟩ := List.any_eq_true.mp hany
        obtain ⟨n, hn, hnx⟩ := List.getElem_of_mem hxb
        refine ⟨n, by omega, ?_⟩
        refine (hval n (by omega)).mpr ?_
        rw [List.getD_eq_getElem b false hn, hnx]
        exact hxt
      have hk : b.findIdx (fun x => !x) < b.length :=
        List.findIdx_lt_length_of_exists hexfalse
      set k := b.findIdx (fun x => !x) with hkdef
      have hbk : b.getD k false = false := by
        rw [List.getD_eq_getElem b false hk]
        have := @List.findIdx_getElem _ (fun x => !x) b hk
        simpa using this
      have hbefore : ∀ j, j < k → b.getD j false = true := by
        intro j hj
        have hjb : j < b.length := lt_trans hj hk
        rw [List.getD_eq_getElem b false hjb]
        have := @List.not_of_lt_findIdx _ (fun x => !x) b j hj
        simpa using this
      have hknot : ¬ f.time.getD k 0 ≤ t := by
        intro hle
        have := (hval k (by omega)).mp hle
        rw [hbk] at this
        exact Bool.false_ne_true this
      have hk1 : 1 ≤ k := by
        by_contra hk0
        have hkz : k = 0 := by omega
        obtain ⟨j0, hj0, hj0le⟩ := hexj
        have : f.time.getD k 0 ≤ t := by
          rw [hkz]
          exact le_trans (chain_getD_mono f.time hmono 0 j0 (Nat.zero_le _) hj0) hj0le
        exact hknot this
      have hi : i = (k : ℤ) - 1 := by
        have := Except.ok.inj hok
        rw [hargmin] at this
        omega
      subst hi
      have hmax : ∀ j, j < f.time.length → f.time.getD j 0 ≤ t → j < k := by
        intro j hj hjle
        by_contra hjk
        push_neg at hjk
        exact hknot (le_trans (chain_getD_mono f.time hmono k j hjk hj) hjle)
      refine ⟨?_, ?_, ?_⟩
      · intro hex
        refine ⟨by omega, by omega, ?_, ?_⟩
        · have heq : ((k : ℤ) - 1).toNat = k - 1 := by omega
          rw [heq]
          refine (hval (k - 1) (by omega)).mpr (hbefore (k - 1) (by omega))
        · intro j hj hjle
          have := hmax j hj hjle
          omega
      · intro hnone
        obtain ⟨j0, hj0, hj0le⟩ := hexj
        exact absurd hj0le (hnone j0 hj0)
      · intro hall2
        exact absurd hall2 (fun h => hknot (h k (by omega)))
    · -- no entry satisfies time[j] <= t; returns 0
      rename_i hnall hnany
      have hnone' : ∀ j, j < f.time.length → ¬ f.time.getD j 0 ≤ t := by
        intro j hj hle
        refine hnany (List.any_eq_true.mpr ?_)
        have hjb : j < b.length := by omega
        refine ⟨b[j], List.getElem_mem hjb, ?_⟩
        have := (hval j hj).mp hle
        rw [List.getD_eq_getElem b false hjb] at this
        exact this
      have hi : i = 0 := (Except.ok.inj hok).symm
      subst hi
      refine ⟨?_, fun _ => rfl, ?_⟩
      · intro hex
        obtain ⟨j0, hj0, hj0le⟩ := hex
        exact absurd hj0le (hnone' j0 hj0)
      · intro hall2
        exact absurd (hall2 0 hlen0) (hnone' 0 hlen0)

/-- Witness for C2 on the sample field at time 5: index 0 is the largest
grid index whose time does not exceed 5. -/
theorem Field.time_index_largest_witness :
    sampleField.timeIndex 5 = .ok 0 ∧
    0 ≤ (0 : ℤ) ∧ (0 : ℤ).toNat < sampleField.time.length ∧
    sampleField.time.getD (0 : ℤ).toNat 0 ≤ 5 ∧
    (∀ j, j < sampleField.time.length → sampleField.time.getD j 0 ≤ 5 → (j : ℤ) ≤ 0) :=
  ⟨tidx_sample,
    (Field.time_index_largest sampleField 5 0 (by simp [sampleField])
      (by norm_num [sampleField, List.chain'_cons]) tidx_sample).1
      ⟨0, by norm_num [sampleField], by norm_num [sampleField]⟩⟩

/-- The default head of a non-empty list is its entry 0. -/
theorem headD_eq_getD (l : List ℚ) (h : l ≠ []) : l.headD 0 = l.getD 0 0 := by
  cases l <;> simp_all

/-- The default last entry of a non-empty list is its entry `len - 1`. -/
theorem getLastD_eq_getD (l : List ℚ) (h : l ≠ []) :
    l.getLastD 0 = l.getD (l.length - 1) 0 := by
  rw [List.getLastD_eq_getLast?, List.getLast?_eq_getElem?]
  simp [List.getD_eq_getElem?_getD]

/-- A raised `spatial_interpolation` error is always a sampling error,
never a time-extrapolation error. -/
theorem Field.spatial_interpolation_error_shape (f : Field) (tidx : ℤ) (y x : ℚ) (e : FieldError)
    (h : f.spatial_interpolation tidx y x = .error e) : e = .sampling ⟨x, y, f.name⟩ := by
  unfold Field.spatial_interpolation at h
  split at h
  · exact (Except.error.inj h).symm
  · exact absurd h (by simp)

/-- C3: `time_index` (and hence `eval`) raises `TimeExtrapolationError`
if and only if `allow_time_extrapolation` is false and the query time is
outside `[time[0], time[-1]]`; the error carries the offending time and
field; with the flag true the same out-of-range query resolves to the
boundary index 0 or `len(time) - 1`. -/
theorem Field.time_index_extrapolation_spec (f : Field) (t : ℚ)
    (hne : f.time ≠ []) (hmono : f.time.Chain' (· < ·)) :
    (f.timeIndex t = .error ⟨t, f.name⟩ ↔
      f.allow_time_extrapolation = false ∧ (t < f.time.headD 0 ∨ f.time.getLastD 0 < t)) ∧
    (∀ e, f.timeIndex t = .error e → e = ⟨t, f.name⟩) ∧
    (∀ x y, (∃ e, f.eval t x y = .error (.timeExt e)) ↔
      f.allow_time_extrapolation = false ∧ (t < f.time.headD 0 ∨ f.time.getLastD 0 < t)) ∧
    (f.allow_time_extrapolation = true → t < f.time.headD 0 → f.timeIndex t = .ok 0) ∧
    (f.allow_time_extrapolation = true → f.time.getLastD 0 < t →
      f.timeIndex t = .ok ((f.time.length : ℤ) - 1)) := by
  have hlen0 : 0 < f.time.length := List.length_pos.mpr hne
  have herr : ∀ e, f.timeIndex t = .error e →
      e = ⟨t, f.name⟩ ∧ f.allow_time_extrapolation = false ∧
        (t < f.time.headD 0 ∨ f.time.getLastD 0 < t) := by
    intro e he
    unfold Field.timeIndex at he
    split at he
    · rename_i hguard
      exact ⟨(Except.error.inj he).symm, hguard⟩
    · simp only [] at he
      split at he
      · exact absurd he (by simp)
      · split at he
        · exact absurd he (by simp)
        · exact absurd he (by simp)
  have hback : f.allow_time_extrapolation = false ∧
      (t < f.time.headD 0 ∨ f.time.getLastD 0 < t) → f.timeIndex t = .error ⟨t, f.name⟩ := by
    intro hguard
    unfold Field.timeIndex
    rw [if_pos hguard]
  refine ⟨⟨fun he => (herr _ he).2, hback⟩, fun e he => (herr e he).1, ?_, ?_, ?_⟩
  · intro x y
    constructor
    · rintro ⟨e, heval⟩
      unfold Field.eval at heval
      rcases hti : f.timeIndex t with e' | ti
      · rw [hti] at heval
        exact (herr e' hti).2
      · rw [hti] at heval
        simp only [] at heval
        exfalso
        by_cases hcond : ti < (f.time.length : ℤ) - 1 ∧ npGet f.time ti < t
        · rw [if_pos hcond] at heval
          rcases h0 : f.spatial_interpolation ti y x with e0 | f0
          · rw [h0] at heval
            have hshape := Field.spatial_interpolation_error_shape f ti y x e0 h0
            rw [hshape] at heval
            exact absurd (Except.error.inj heval) (by simp)
          · rw [h0] at heval
            rcases h1 : f.spatial_interpolation (ti + 1) y x with e1 | f1
            · rw [h1] at heval
              have hshape := Field.spatial_interpolation_error_shape f (ti + 1) y x e1 h1
              rw [hshape] at heval
              exact absurd (Except.error.inj heval) (by simp)
            · rw [h1] at heval
              exact absurd heval (by simp)
        · rw [if_neg hcond] at heval
          rcases h0 : f.spatial_interpolation ti y x with e0 | f0
          · rw [h0] at heval
            have hshape := Field.spatial_interpolation_error_shape f ti y x e0 h0
            rw [hshape] at heval
            exact absurd (Except.error.inj heval) (by simp)
          · rw [h0] at heval
            exact absurd heval (by simp)
    · intro hguard
      refine ⟨⟨t, f.name⟩, ?_⟩
      unfold Field.eval
      rw [hback hguard]
  · intro hallow hbelow
    have hnle : ∀ j, j < f.time.length → ¬ f.time.getD j 0 ≤ t := by
      intro j hj hle
      have h0j : f.time.getD 0 0 ≤ f.time.getD j 0 :=
        chain_getD_mono f.time hmono 0 j (Nat.zero_le _) hj
      rw [headD_eq_getD f.time hne] at hbelow
      linarith
    unfold Field.timeIndex
    rw [if_neg (by simp [hallow])]
    have hb : ∀ x ∈ f.time.map (fun v => decide (v ≤ t)), x = false := by
      intro x hx
      obtain ⟨v, hv, rfl⟩ := List.mem_map.mp hx
      obtain ⟨n, hn, rfl⟩ := List.getElem_of_mem hv
      have := hnle n (by simpa using hn)
      rw [List.getD_eq_getElem f.time 0 (by simpa using hn)] at this
      simpa using this
    have hallf : (f.time.map (fun v => decide (v ≤ t))).all id = false := by
      rcases hcase : (f.time.map (fun v => decide (v ≤ t))).all id with - | -
      · rfl
      · obtain ⟨v, hv⟩ := List.exists_mem_of_ne_nil (f.time.map (fun v => decide (v ≤ t)))
          (by simp [← List.length_pos, hlen0])
        have h1 := List.all_eq_true.mp hcase v hv
        have h2 := hb v hv
        simp [h2] at h1
    have hanyf : (f.time.map (fun v => decide (v ≤ t))).any id = false := by
      rcases hcase : (f.time.map (fun v => decide (v ≤ t))).any id with - | -
      · rfl
      · obtain ⟨v, hv, hvt⟩ := List.any_eq_true.mp hcase
        have h2 := hb v hv
        simp [h2] at hvt
    rw [if_neg (by simp [hallf]), if_neg (by simp [hanyf])]
  · intro hallow habove
    have hle : ∀ j, j < f.time.length → f.time.getD j 0 ≤ t := by
      intro j hj
      have hjl : f.time.getD j 0 ≤ f.time.getD (f.time.length - 1) 0 :=
        chain_getD_mono f.time hmono j (f.time.length - 1) (by omega) (by omega)
      rw [getLastD_eq_getD f.time hne] at habove
      linarith
    unfold Field.timeIndex
    rw [if_neg (by simp [hallow])]
    have hallt : (f.time.map (fun v => decide (v ≤ t))).all id = true := by
      refine List.all_eq_true.mpr ?_
      intro x hx
      obtain ⟨v, hv, rfl⟩ := List.mem_map.mp hx
      obtain ⟨n, hn, rfl⟩ := List.getElem_of_mem hv
      have := hle n (by simpa using hn)
      rw [List.getD_eq_getElem f.time 0 (by simpa using hn)] at this
      simpa using this
    rw [if_pos hallt]

/-- Witness for C3: the sample field rejects time 25 (beyond the last
grid time 20) with the extrapolation error, while the same field with
`allow_time_extrapolation=True` clamps to the last index 2. -/
theorem Field.time_index_extrapolation_spec_witness :
    sampleField.timeIndex 25 = .error ⟨25, "U"⟩ ∧
    sampleFieldExtrap.timeIndex 25 = .ok 2 :=
  ⟨(Field.time_index_extrapolation_spec sampleField 25 (by simp [sampleField])
      (by norm_num [sampleField, List.chain'_cons])).1.mpr
      ⟨rfl, Or.inr (by norm_num [sampleField])⟩,
    Eq.trans
      ((Field.time_index_extrapolation_spec sampleFieldExtrap 25
        (by simp [sampleFieldExtrap, sampleField])
        (by norm_num [sampleFieldExtrap, sampleField, List.chain'_cons])).2.2.2.2 rfl
        (by norm_num [sampleFieldExtrap, sampleField]))
      (by norm_num [sampleFieldExtrap, sampleField])⟩

/-- Lookup in an association list by key returns a stored pair, which
satisfies any invariant that all entries satisfy. -/
theorem findPair_correct {κ ν : Type} [DecidableEq κ] (l : List (κ × ν)) (k : κ) (v : ν)
    (P : κ → ν → Prop) (hvalid : ∀ p ∈ l, P p.1 p.2)
    (h : (l.find? (fun p => decide (p.1 = k))).map Prod.snd = some v) : P k v := by
  induction l with
  | nil => simp [List.find?] at h
  | cons a l ih =>
    by_cases hak : a.1 = k
    · rw [List.find?_cons_of_pos _ (by simp [hak])] at h
      simp only [Option.map_some'] at h
      have hv := Option.some.inj h
      have := hvalid a (List.mem_cons_self a l)
      rw [hak, hv] at this
      exact this
    · rw [List.find?_cons_of_neg _ (by simp [hak])] at h
      exact ih (fun p hp => hvalid p (List.mem_cons_of_mem a hp)) h

/-- A successful cache lookup returns an entry satisfying any invariant
that all entries satisfy, at the looked-up key. -/
theorem lruLookup_correct {κ ν : Type} [DecidableEq κ] (c : LRU κ ν) (k : κ) (v : ν)
    (P : κ → ν → Prop) (hvalid : ∀ p ∈ c.entries, P p.1 p.2)
    (h : lruLookup c k = some v) : P k v :=
  findPair_correct c.entries k v P hvalid h

/-- Moving a key to the front preserves any entrywise invariant. -/
theorem lruTouch_valid {κ ν : Type} [DecidableEq κ] (c : LRU κ ν) (k : κ)
    (P : κ → ν → Prop) (hvalid : ∀ p ∈ c.entries, P p.1 p.2) :
    ∀ p ∈ (lruTouch c k).entries, P p.1 p.2 := by
  intro p hp
  unfold lruTouch at hp
  rcases hl : lruLookup c k with - | v
  · rw [hl] at hp
    exact hvalid p hp
  · rw [hl] at hp
    rcases List.mem_cons.mp hp with rfl | hmem
    · exact lruLookup_correct c k v P hvalid hl
    · exact hvalid p (List.mem_of_mem_filter hmem)

/-- Inserting a value satisfying the invariant preserves it, whatever is
evicted. -/
theorem lruInsert_valid {κ ν : Type} [DecidableEq κ] (c : LRU κ ν) (k : κ) (v : ν)
    (P : κ → ν → Prop) (hvalid : ∀ p ∈ c.entries, P p.1 p.2) (hkv : P k v) :
    ∀ p ∈ (lruInsert c k v).entries, P p.1 p.2 := by
  intro p hp
  unfold lruInsert at hp
  rcases List.mem_cons.mp hp with rfl | hmem
  · exact hkv
  · exact hvalid p (List.mem_of_mem_filter (List.mem_of_mem_take hmem))

/-- A cached non-raising method returns exactly what the uncached method
computes and keeps the cache consistent. -/
theorem cachedCall_correct {κ ν : Type} [DecidableEq κ] (compute : κ → ν)
    (c : LRU κ ν) (k : κ) (hvalid : ∀ p ∈ c.entries, p.2 = compute p.1) :
    (cachedCall compute c k).1 = compute k ∧
    ∀ p ∈ (cachedCall compute c k).2.entries, p.2 = compute p.1 := by
  unfold cachedCall
  rcases hl : lruLookup c k with - | v
  · exact ⟨rfl, lruInsert_valid c k (compute k) (fun a b => b = compute a) hvalid rfl⟩
  · refine ⟨lruLookup_correct c k v (fun a b => b = compute a) hvalid hl, ?_⟩
    exact lruTouch_valid c k (fun a b => b = compute a) hvalid

/-- A cached raising method returns exactly what the uncached method
computes — cached successes replay, errors propagate uncached — and keeps
the cache consistent. -/
theorem cachedCallE_correct {κ ν ε : Type} [DecidableEq κ] (compute : κ → Except ε ν)
    (c : LRU κ ν) (k : κ) (hvalid : ∀ p ∈ c.entries, compute p.1 = .ok p.2) :
    (cachedCallE compute c k).1 = compute k ∧
    ∀ p ∈ (cachedCallE compute c k).2.entries, compute p.1 = .ok p.2 := by
  unfold cachedCallE
  rcases hl : lruLookup c k with - | v
  · rcases hc : compute k with e | v
    · exact ⟨rfl, hvalid⟩
    · exact ⟨rfl, lruInsert_valid c k v (fun a b => compute a = .ok b) hvalid hc⟩
  · refine ⟨(lruLookup_correct c k v (fun a b => compute a = .ok b) hvalid hl).symm, ?_⟩
    exact lruTouch_valid c k (fun a b => compute a = .ok b) hvalid

/-- The cached `time_index` agrees with the pure one and preserves cache
validity and the field. -/
theorem FieldState.timeIndex_correct (s : FieldState) (h : ValidState s) (t : ℚ) :
    (s.timeIndex t).1 = s.field.timeIndex t ∧ ValidState (s.timeIndex t).2 ∧
    (s.timeIndex t).2.field = s.field := by
  obtain ⟨hI, hT⟩ := h
  obtain ⟨hval, hpres⟩ := cachedCallE_correct (fun u => s.field.timeIndex u) s.timeIdxCache t hT
  exact ⟨hval, ⟨hI, hpres⟩, rfl⟩

/-- The cached `interpolator2D` agrees with the pure slice interpolator
and preserves cache validity and the field. -/
theorem FieldState.interpolator2D_correct (s : FieldState) (h : ValidState s) (tidx : ℤ) :
    (s.interpolator2D tidx).1 = s.field.interp tidx ∧ ValidState (s.interpolator2D tidx).2 ∧
    (s.interpolator2D tidx).2.field = s.field := by
  obtain ⟨hI, hT⟩ := h
  obtain ⟨hval, hpres⟩ := cachedCall_correct (fun i => s.field.interp i) s.interpCache tidx hI
  exact ⟨hval, ⟨hpres, hT⟩, rfl⟩

/-- The cached `spatial_interpolation` agrees with the pure one and
preserves cache validity and the field. -/
theorem FieldState.spatial_interpolation_correct (s : FieldState) (h : ValidState s)
    (tidx : ℤ) (y x : ℚ) :
    (s.spatial_interpolation tidx y x).1 = s.field.spatial_interpolation tidx y x ∧
    ValidState (s.spatial_interpolation tidx y x).2 ∧
    (s.spatial_interpolation tidx y x).2.field = s.field := by
  obtain ⟨g1, g2, g3⟩ := FieldState.interpolator2D_correct s h tidx
  unfold FieldState.spatial_interpolation Field.spatial_interpolation
  simp only []
  rw [g1]
  rcases h0 : s.field.interp tidx y x with - | v
  · exact ⟨by trivial, g2, g3⟩
  · exact ⟨by trivial, g2, g3⟩

/-- The cached `eval` agrees with the pure `eval` and preserves cache
validity and the field. -/
theorem FieldState.eval_correct (s : FieldState) (h : ValidState s) (t x y : ℚ) :
    (s.eval t x y).1 = s.field.eval t x y ∧ ValidState (s.eval t x y).2 ∧
    (s.eval t x y).2.field = s.field := by
  obtain ⟨h1, h2, h3⟩ := FieldState.timeIndex_correct s h t
  unfold FieldState.eval Field.eval
  simp only []
  rcases hcase : s.field.timeIndex t with e | ti
  · rw [hcase] at h1
    simp only [h1]
    exact ⟨by trivial, h2, h3⟩
  · rw [hcase] at h1
    simp only [h1, h3]
    obtain ⟨g1, g2, g3⟩ := FieldState.spatial_interpolation_correct (s.timeIndex t).2 h2 ti y x
    rw [h3] at g1
    by_cases hcond : ti < (s.field.time.length : ℤ) - 1 ∧ npGet s.field.time ti < t
    · rw [if_pos hcond, if_pos hcond]
      rcases h0 : s.field.spatial_interpolation ti y x with e0 | f0
      · rw [h0] at g1
        simp only [g1]
        exact ⟨by trivial, g2, g3⟩
      · rw [h0] at g1
        simp only [g1]
        obtain ⟨k1, k2, k3⟩ := FieldState.spatial_interpolation_correct
          ((s.timeIndex t).2.spatial_interpolation ti y x).2 g2 (ti + 1) y x
        rw [g3] at k1
        rw [h3] at k1
        rcases h1' : s.field.spatial_interpolation (ti + 1) y x with e1 | f1
        · rw [h1'] at k1
          simp only [k1]
          exact ⟨by trivial, k2, by rw [k3, g3, h3]⟩
        · rw [h1'] at k1
          simp only [k1]
          refine ⟨?_, k2, by rw [k3, g3, h3]⟩
          rw [k3, g3, h3]
    · rw [if_neg hcond, if_neg hcond]
      rcases h0 : s.field.spatial_interpolation ti y x with e0 | f0
      · rw [h0] at g1
        simp only [g1]
        exact ⟨by trivial, g2, g3⟩
      · rw [h0] at g1
        simp only [g1]
        refine ⟨?_, g2, g3⟩
        rw [g3, h3]

/-- Any query sequence through the caches returns exactly the pure
evaluations. -/
theorem FieldState.runQueries_correct (s : FieldState) (h : ValidState s)
    (qs : List (ℚ × ℚ × ℚ)) :
    FieldState.runQueries s qs = qs.map (fun q => s.field.eval q.1 q.2.1 q.2.2) := by
  induction qs generalizing s with
  | nil => rfl
  | cons q qs ih =>
    obtain ⟨e1, e2, e3⟩ := FieldState.eval_correct s h q.1 q.2.1 q.2.2
    unfold FieldState.runQueries
    simp only []
    rw [e1, ih _ e2, e3, List.map_cons]

/-- C7: the interpolator and time-index caches never alter observable
results: starting from any valid cache state (any contents, any
capacity, empty or full), every query sequence through the cached `eval`
returns exactly the pure (uncached) evaluations, and each single cached
call agrees with the pure call while keeping the caches valid. -/
theorem cache_transparent (s : FieldState) (hvalid : ValidState s) (qs : List (ℚ × ℚ × ℚ)) :
    FieldState.runQueries s qs = qs.map (fun q => s.field.eval q.1 q.2.1 q.2.2) ∧
    (∀ t x y, (s.eval t x y).1 = s.field.eval t x y ∧ ValidState (s.eval t x y).2) :=
  ⟨FieldState.runQueries_correct s hvalid qs,
    fun t x y => ⟨(FieldState.eval_correct s hvalid t x y).1,
      (FieldState.eval_correct s hvalid t x y).2.1⟩⟩

/-- Witness for C7: three queries through initially empty caches of
capacity 2, with a repeated query exercising a cache hit, return the
pure evaluations. -/
theorem cache_transparent_witness :
    FieldState.runQueries ⟨sampleField, ⟨[], 2⟩, ⟨[], 2⟩⟩ [(5, 0, 0), (5, 0, 0), (10, 2, 3)] =
      [sampleField.eval 5 0 0, sampleField.eval 5 0 0, sampleField.eval 10 2 3] :=
  Eq.trans
    ((cache_transparent ⟨sampleField, ⟨[], 2⟩, ⟨[], 2⟩⟩
      ⟨fun p hp => absurd hp (List.not_mem_nil p), fun p hp => absurd hp (List.not_mem_nil p)⟩
      [(5, 0, 0), (5, 0, 0), (10, 2, 3)]).1)
    (by simp)

end Parcels
